import Mathlib

/-!
Verification development for the gocachemark benchmark harness.

This file gives a shallow embedding, in Lean 4, of the measurement and
ranking core of the repository: the tie-aware ranked-voting aggregator
(internal/output/markdown.go, the revision holding the slice-valued
BenchmarkMedal type), the winner formatter (FormatWinners), the hit-rate
trace simulator (internal/benchmark, runStringTrace and runMetaTrace),
the Zipfian workload generator (internal/workload, GenerateZipfInt), and
the key layout of the Set-with-eviction latency benchmark
(internal/benchmark/latency.go, benchSetEvict).

Modelling conventions:
  - Go float64 arithmetic is modelled by exact rational arithmetic.  The
    one float64 operation with no rational counterpart, math.Pow, is an
    external standard-library collaborator and is modelled as an abstract
    function supplied through a FloatModel record; theorems that need
    facts about it take them as explicit hypotheses that real powers
    satisfy.
  - A float64 division whose denominator is zero yields NaN in Go; where
    the code can reach such a division (a hit-rate over zero counted
    operations) the embedding returns an Option and models NaN as none.
  - Go int values are modelled as Int (Lean integers); uint64 values and
    the PCG state are modelled as Nat reduced modulo 2 ^ 64 and 2 ^ 128
    exactly where the machine width matters.
  - string keys produced by strconv.Itoa over distinct integers are
    modelled by the integers themselves (Itoa is injective, so key
    identity is preserved).
-/

/-! ## Rounding and the ranked-voting aggregator (internal/output/markdown.go) -/

/-- Entry of a pre-sorted per-benchmark ranking, mirroring the Go struct
rankedEntry with fields name and score. -/
structure RankedEntry where
  name : String
  score : ℚ

/-- Model of math.Round from the Go standard library: round to the nearest
integer, rounding halves away from zero. -/
def mathRound (x : ℚ) : ℤ :=
  if 0 ≤ x then ⌊x + 1 / 2⌋ else -⌊-x + 1 / 2⌋

/-- Round3 rounds to 3 decimal places for tie detection, mirroring
Round3 in markdown.go: math.Round(f * 1000) / 1000. -/
def Round3 (x : ℚ) : ℚ :=
  (mathRound (x * 1000) : ℚ) / 1000

/-- Points awarded by placement: 1st=10, 2nd=7, 3rd=5, 4th=4, 5th=3, 6th=2,
7th=1, mirroring the placementPoints slice. -/
def placementPoints : List ℚ := [10, 7, 5, 4, 3, 2, 1]

/-- Point value a member placed at position pos receives: the table entry
when pos is within placementPoints, otherwise 0 (the Go loop simply skips
the score update for pos at 8th place or later). -/
def pointsFor (pos : ℕ) : ℚ := placementPoints.getD pos 0

/-- Medal sets a single call of assignPoints produces: the tied name lists
stored into the Gold, Silver and Bronze fields of the BenchmarkMedal the
call builds (empty when no group lands on that position). -/
structure MedalSets where
  gold : List String
  silver : List String
  bronze : List String

/-- Embedding of the loop body of assignPoints in markdown.go.  Starting at
medal position pos, the run of leading entries whose Round3 scores equal the
Round3 score of the first entry is collected as the tied group; the group is
emitted with its position, the position is advanced by the group size, and
the walk continues on the remaining entries.  The medal sets record the tied
groups that land on positions 0, 1 and 2. -/
def assignPointsLoop : List RankedEntry → ℕ → List (ℕ × List String) × MedalSets
  | [], _ => ([], ⟨[], [], []⟩)
  | e :: rest, pos =>
    let tied := e.name ::
      (rest.takeWhile (fun x => decide (Round3 x.score = Round3 e.score))).map (fun x => x.name)
    let rest2 := rest.dropWhile (fun x => decide (Round3 x.score = Round3 e.score))
    let next := assignPointsLoop rest2 (pos + tied.length)
    ((pos, tied) :: next.1,
      ⟨if pos = 0 then tied else next.2.gold,
       if pos = 1 then tied else next.2.silver,
       if pos = 2 then tied else next.2.bronze⟩)
termination_by entries _ => entries.length
decreasing_by
  simp only [List.length_cons]
  exact Nat.lt_succ_of_le ((List.dropWhile_sublist _).length_le)

/-- Per-benchmark point assignment read off from the groups computed by
assignPointsLoop: every member of a tied group receives the point value of
the position the group occupies. -/
def benchScores (entries : List RankedEntry) : List (String × ℚ) :=
  (assignPointsLoop entries 0).1.flatMap (fun pg => pg.2.map (fun n => (n, pointsFor pg.1)))

/-- Specification-level chunking of a result list: contiguous entries whose
scores are equal after rounding to 3 decimal places are grouped together.
Unlike the implementation loop, which compares against the first entry of
the current group, this definition compares adjacent entries; the two agree
because rounded-score equality is transitive. -/
def specChunks : List RankedEntry → List (List RankedEntry)
  | [] => []
  | e :: rest =>
    match specChunks rest with
    | [] => [[e]]
    | [] :: gs => [e] :: [] :: gs
    | (x :: g) :: gs =>
      if Round3 e.score = Round3 x.score then (e :: x :: g) :: gs
      else [e] :: (x :: g) :: gs

/-- Attaches placements to a list of tie groups: the first group occupies
the given starting placement and each later group occupies the placement
just past all members of the groups before it. -/
def withPlacements (pos : ℕ) : List (List RankedEntry) → List (ℕ × List RankedEntry)
  | [] => []
  | g :: gs => (pos, g) :: withPlacements (pos + g.length) gs

/-- Names of the tie group occupying placement p, if any. -/
def medalAt (p : ℕ) (l : List (ℕ × List RankedEntry)) : List String :=
  match l.find? (fun pg => decide (pg.1 = p)) with
  | some pg => pg.2.map (fun x => x.name)
  | none => []

/-- Entry of a winner display list, mirroring the Go struct WinnerEntry
with fields Name and Score. -/
structure WinnerEntry where
  name : String
  score : ℚ

/-- Embedding of the loop of FormatWinners: walk the entries, collecting
names whose Round3 score equals the best score; the first entry whose
rounded score differs becomes the runner-up and the walk stops. -/
def formatWinnersLoop (best : ℚ) : List WinnerEntry → List String × Option WinnerEntry
  | [] => ([], none)
  | e :: rest =>
    if Round3 e.score = best then
      let next := formatWinnersLoop best rest
      (e.name :: next.1, next.2)
    else ([], some e)

/-- Embedding of FormatWinners in markdown.go: returns winner names and the
first runner-up; on an empty list both are empty.  The best score is the
Round3 of the first entry and the walk covers the whole list from the
first entry on. -/
def FormatWinners : List WinnerEntry → List String × Option WinnerEntry
  | [] => ([], none)
  | e :: rest => formatWinnersLoop (Round3 e.score) (e :: rest)

/-! ## ComputeRankings (internal/output/markdown.go) -/

/-- Hit-rate result row: cache name and the hit-rate percentage measured at
each cache size, mirroring benchmark.HitRateResult (Rates is a Go map from
size to rate, modelled as an association list). -/
structure HitRateResult where
  name : String
  rates : List (ℕ × ℚ)

/-- Latency result row reduced to the fields ComputeRankings reads,
mirroring benchmark.LatencyResult (the int-keyed rows carry the same two
fields). -/
structure LatencyResult where
  name : String
  getNsOp : ℚ
  setNsOp : ℚ

/-- GetOrSet latency result row, mirroring benchmark.GetOrSetLatencyResult. -/
structure GetOrSetLatencyResult where
  name : String
  nsOp : ℚ

/-- Throughput result row: cache name and QPS per thread count, mirroring
benchmark.ThroughputResult. -/
structure ThroughputResult where
  name : String
  qps : List (ℕ × ℚ)

/-- Memory result row reduced to the fields ComputeRankings reads. -/
structure MemoryResult where
  name : String
  bytes : ℕ

/-- Hit-rate benchmark data, mirroring output.HitRateData. -/
structure HitRateData where
  cdn : List HitRateResult
  meta : List HitRateResult
  zipf : List HitRateResult
  twitter : List HitRateResult
  wikipedia : List HitRateResult
  thesiosBlock : List HitRateResult
  thesiosFile : List HitRateResult
  ibmDocker : List HitRateResult
  tencentPhoto : List HitRateResult
  sizes : List ℕ

/-- Latency benchmark data, mirroring output.LatencyData. -/
structure LatencyData where
  results : List LatencyResult
  intResults : List LatencyResult
  getOrSetResults : List GetOrSetLatencyResult

/-- Throughput benchmark data, mirroring output.ThroughputData. -/
structure ThroughputData where
  stringGetResults : List ThroughputResult
  stringSetResults : List ThroughputResult
  intGetResults : List ThroughputResult
  intSetResults : List ThroughputResult
  getOrSetResults : List ThroughputResult
  threads : List ℕ

/-- Memory benchmark data, mirroring output.MemoryData. -/
structure MemoryData where
  results : List MemoryResult

/-- Benchmark results handed to ComputeRankings; a nil pointer in Go is
modelled as none.  Fields the aggregator never reads are omitted. -/
structure Results where
  hitRate : Option HitRateData
  latency : Option LatencyData
  throughput : Option ThroughputData
  memory : Option MemoryData

/-- AvgHitRate computes the average hit rate across all cache sizes; a size
missing from the map contributes the Go zero value.  (For an empty size
list the Go division yields NaN; the rational junk value 0 stands in — the
aggregator only uses this value to sort.) -/
def AvgHitRate (r : HitRateResult) (sizes : List ℕ) : ℚ :=
  (sizes.map (fun s => ((r.rates.lookup s).getD 0))).sum / (sizes.length : ℚ)

/-- Mean QPS across thread counts, mirroring avgQPS.  (Go iterates the map
in unspecified order; the sum is order-independent.) -/
def avgQPS (r : ThroughputResult) : ℚ :=
  (r.qps.map (fun p => p.2)).sum / (r.qps.length : ℚ)

/-- Association-list update with a zero default, modelling a Go map update
of the shape m[k] = f(m[k]).  Insertion order of first writes is kept;
Go map iteration order is unspecified, so any order is a faithful choice
for the places the order reaches the output only through a sort. -/
def updateAssoc {α : Type} (l : List (String × α)) (k : String) (d : α) (f : α → α) :
    List (String × α) :=
  match l with
  | [] => [(k, f d)]
  | (k2, v) :: rest =>
    if k2 = k then (k2, f v) :: rest else (k2, v) :: updateAssoc rest k d f

/-- Gold, silver and bronze counters of one cache, mirroring the Go value
type [3]int of the medals maps. -/
structure MedalCounts where
  gold : ℕ
  silver : ℕ
  bronze : ℕ

/-- Increment of the medal counter selected by a position below 3. -/
def bumpMedal (pos : ℕ) (m : MedalCounts) : MedalCounts :=
  if pos = 0 then { m with gold := m.gold + 1 }
  else if pos = 1 then { m with silver := m.silver + 1 }
  else if pos = 2 then { m with bronze := m.bronze + 1 }
  else m

/-- Medal winners of a single benchmark, mirroring output.BenchmarkMedal
(slice-valued fields so that ties keep every winner). -/
structure BenchmarkMedal where
  name : String
  gold : List String
  silver : List String
  bronze : List String

/-- Mutable aggregation state of ComputeRankings: the scores, medals,
categoryMedals and categoryBenchmarks maps. -/
structure AggState where
  scores : List (String × ℚ)
  medals : List (String × MedalCounts)
  categoryMedals : List (String × List (String × MedalCounts))
  categoryBenchmarks : List (String × List BenchmarkMedal)

/-- Updates the aggregation state for one member n of a tied group placed
at position pos: the score update is guarded by pos falling inside the
placementPoints table, the medal updates by pos being a podium position. -/
def applyMember (category : String) (pos : ℕ) (st : AggState) (n : String) : AggState :=
  let st1 :=
    if pos < placementPoints.length then
      { st with scores := updateAssoc st.scores n 0 (fun s => s + placementPoints.getD pos 0) }
    else st
  if pos < 3 then
    { st1 with
      medals := updateAssoc st1.medals n ⟨0, 0, 0⟩ (bumpMedal pos),
      categoryMedals := updateAssoc st1.categoryMedals category []
        (fun cm => updateAssoc cm n ⟨0, 0, 0⟩ (bumpMedal pos)) }
  else st1

/-- Embedding of one assignPoints call inside ComputeRankings: walk the
tied groups, update scores and medal maps for every member, and append the
BenchmarkMedal for this benchmark to its category. -/
def applyAssign (st : AggState) (category benchName : String) (entries : List RankedEntry) :
    AggState :=
  let gm := assignPointsLoop entries 0
  let st1 := gm.1.foldl (fun s pg => pg.2.foldl (applyMember category pg.1) s) st
  { st1 with
    categoryBenchmarks := updateAssoc st1.categoryBenchmarks category []
      (fun bs => bs ++ [⟨benchName, gm.2.gold, gm.2.silver, gm.2.bronze⟩]) }

/-- Overall ranking entry, mirroring output.Ranking. -/
structure Ranking where
  rank : ℕ
  name : String
  score : ℚ
  gold : ℕ
  silver : ℕ
  bronze : ℕ

/-- Category block of the medal table, mirroring output.CategoryMedals. -/
structure CategoryMedals where
  name : String
  benchmarks : List BenchmarkMedal
  rankings : List Ranking

/-- Medal table grouped by category, mirroring output.MedalTable. -/
structure MedalTable where
  categories : List CategoryMedals

/-- Row of the intermediate cacheRank slice ComputeRankings sorts. -/
structure CacheRank where
  name : String
  score : ℚ
  gold : ℕ
  silver : ℕ
  bronze : ℕ

/-- Comparator of the overall ranking sort: score descending, then gold,
silver and bronze counts descending, mirroring the sort.Slice closure (the
Go sort leaves the order of fully tied rows unspecified; merge sort is one
faithful refinement). -/
def rankLE (a b : CacheRank) : Bool :=
  if a.score ≠ b.score then decide (b.score < a.score)
  else if a.gold ≠ b.gold then decide (b.gold < a.gold)
  else if a.silver ≠ b.silver then decide (b.silver < a.silver)
  else decide (b.bronze ≤ a.bronze)

/-- Comparator of the per-category sub-ranking sort: gold, silver, bronze
counts descending. -/
def catRankLE (a b : CacheRank) : Bool :=
  if a.gold ≠ b.gold then decide (b.gold < a.gold)
  else if a.silver ≠ b.silver then decide (b.silver < a.silver)
  else decide (b.bronze ≤ a.bronze)

/-- Named hit-rate benchmark list ComputeRankings walks, in source order. -/
def hitRateBenchList (hr : HitRateData) : List (String × List HitRateResult) :=
  [("CDN", hr.cdn), ("Meta", hr.meta), ("Zipf", hr.zipf), ("Twitter", hr.twitter),
   ("Wikipedia", hr.wikipedia), ("Thesios Block", hr.thesiosBlock),
   ("Thesios File", hr.thesiosFile), ("IBM Docker", hr.ibmDocker),
   ("Tencent Photo", hr.tencentPhoto)]

/-- Named throughput benchmark list ComputeRankings walks, in source order. -/
def throughputBenchList (tp : ThroughputData) : List (String × List ThroughputResult) :=
  [("String Get", tp.stringGetResults), ("String Set", tp.stringSetResults),
   ("Int Get", tp.intGetResults), ("Int Set", tp.intSetResults),
   ("GetOrSet", tp.getOrSetResults)]

/-- Aggregation state after the hit-rate section of ComputeRankings. -/
def aggHitRate (st0 : AggState) (o : Option HitRateData) : AggState :=
  match o with
  | none => st0
  | some hr =>
    (hitRateBenchList hr).foldl
      (fun st b =>
        if b.2.length = 0 then st
        else
          let sorted := b.2.mergeSort (fun i j => decide (AvgHitRate j hr.sizes ≤ AvgHitRate i hr.sizes))
          applyAssign st "Hit Rate" b.1 (sorted.map (fun r => ⟨r.name, AvgHitRate r hr.sizes⟩)))
      st0

/-- Aggregation state after the latency section of ComputeRankings. -/
def aggLatency (st1 : AggState) (o : Option LatencyData) : AggState :=
  match o with
  | none => st1
  | some la =>
    let s1 :=
      if la.results.length = 0 then st1
      else
        let sorted := la.results.mergeSort
          (fun i j => decide (i.getNsOp + i.setNsOp ≤ j.getNsOp + j.setNsOp))
        applyAssign st1 "Latency" "String Keys"
          (sorted.map (fun r => ⟨r.name, (r.getNsOp + r.setNsOp) / 2⟩))
    let s2 :=
      if la.intResults.length = 0 then s1
      else
        let sorted := la.intResults.mergeSort
          (fun i j => decide (i.getNsOp + i.setNsOp ≤ j.getNsOp + j.setNsOp))
        applyAssign s1 "Latency" "Int Keys"
          (sorted.map (fun r => ⟨r.name, (r.getNsOp + r.setNsOp) / 2⟩))
    if la.getOrSetResults.length = 0 then s2
    else
      let sorted := la.getOrSetResults.mergeSort (fun i j => decide (i.nsOp ≤ j.nsOp))
      applyAssign s2 "Latency" "GetOrSet" (sorted.map (fun r => ⟨r.name, r.nsOp⟩))

/-- Aggregation state after the throughput section of ComputeRankings. -/
def aggThroughput (st2 : AggState) (o : Option ThroughputData) : AggState :=
  match o with
  | none => st2
  | some tp =>
    (throughputBenchList tp).foldl
      (fun st b =>
        if b.2.length = 0 then st
        else
          let sorted := b.2.mergeSort (fun i j => decide (avgQPS j ≤ avgQPS i))
          applyAssign st "Throughput" b.1 (sorted.map (fun r => ⟨r.name, avgQPS r⟩)))
      st2

/-- Aggregation state after the memory section of ComputeRankings (the Go
code ranks the memory rows in their given order). -/
def aggMemory (st3 : AggState) (o : Option MemoryData) : AggState :=
  match o with
  | none => st3
  | some mem =>
    if mem.results.length = 0 then st3
    else applyAssign st3 "Memory" "Overhead"
      (mem.results.map (fun r => ⟨r.name, (r.bytes : ℚ)⟩))

/-- Category order of the medal table. -/
def catOrder : List String := ["Hit Rate", "Latency", "Throughput", "Memory"]

/-- Embedding of ComputeRankings in markdown.go: aggregate all four
benchmark categories, and if no score was recorded return the nil pair;
otherwise build the overall ranking (sorted by score then medals) and the
per-category medal table. -/
def ComputeRankings (results : Results) : List Ranking × Option MedalTable :=
  let st := aggMemory (aggThroughput (aggLatency (aggHitRate ⟨[], [], [], []⟩ results.hitRate)
    results.latency) results.throughput) results.memory
  if st.scores.length = 0 then ([], none)
  else
    let ranks := st.scores.map (fun p =>
      let m := (st.medals.lookup p.1).getD ⟨0, 0, 0⟩
      CacheRank.mk p.1 p.2 m.gold m.silver m.bronze)
    let sorted := ranks.mergeSort rankLE
    let overall := sorted.enum.map (fun ir =>
      Ranking.mk (ir.1 + 1) ir.2.name ir.2.score ir.2.gold ir.2.silver ir.2.bronze)
    let categories := catOrder.filterMap (fun cat =>
      match (st.categoryBenchmarks.lookup cat).getD [] with
      | [] => none
      | bms =>
        let cm := (st.categoryMedals.lookup cat).getD []
        let catRanks := cm.map (fun p => CacheRank.mk p.1 0 p.2.gold p.2.silver p.2.bronze)
        let sortedCat := catRanks.mergeSort catRankLE
        some (CategoryMedals.mk cat bms (sortedCat.enum.map (fun ir =>
          Ranking.mk (ir.1 + 1) ir.2.name 0 ir.2.gold ir.2.silver ir.2.bronze))))
    (overall, some ⟨categories⟩)

/-- Absence of hit-rate benchmark data: either the pointer is nil or every
trace list is empty. -/
def noHitRateData : Option HitRateData → Prop
  | none => True
  | some hr =>
    hr.cdn = [] ∧ hr.meta = [] ∧ hr.zipf = [] ∧ hr.twitter = [] ∧ hr.wikipedia = [] ∧
    hr.thesiosBlock = [] ∧ hr.thesiosFile = [] ∧ hr.ibmDocker = [] ∧ hr.tencentPhoto = []

/-- Absence of latency benchmark data. -/
def noLatencyData : Option LatencyData → Prop
  | none => True
  | some la => la.results = [] ∧ la.intResults = [] ∧ la.getOrSetResults = []

/-- Absence of throughput benchmark data. -/
def noThroughputData : Option ThroughputData → Prop
  | none => True
  | some tp =>
    tp.stringGetResults = [] ∧ tp.stringSetResults = [] ∧ tp.intGetResults = [] ∧
    tp.intSetResults = [] ∧ tp.getOrSetResults = []

/-- Absence of memory benchmark data. -/
def noMemoryData : Option MemoryData → Prop
  | none => True
  | some mem => mem.results = []

/-- Input with zero participating benchmark result lists. -/
def Results.noBenchmarkData (r : Results) : Prop :=
  noHitRateData r.hitRate ∧ noLatencyData r.latency ∧ noThroughputData r.throughput ∧
    noMemoryData r.memory

/-! ## Hit-rate trace simulator (internal/benchmark, part of the benchmark package) -/

/-- Opaque cache-under-test: Get may mutate internal state (recency
bookkeeping) and returns the stored value when the key is present; Set
stores a key/value pair.  This models the cache.Cache interface the
simulator drives. -/
structure CacheModel (σ : Type) where
  get : σ → String → Option String × σ
  set : σ → String → String → σ

/-- One replay step of the read-through loop of runStringTrace: Get the
key; on a hit bump the hit counter, on a miss bump the miss counter and
immediately Set(key, key). -/
def stringTraceStep {σ : Type} (c : CacheModel σ) (acc : σ × ℕ × ℕ) (key : String) :
    σ × ℕ × ℕ :=
  match c.get acc.1 key with
  | (some _, st) => (st, acc.2.1 + 1, acc.2.2)
  | (none, st) => (c.set st key key, acc.2.1, acc.2.2 + 1)

/-- Embedding of runStringTrace: replay the ordered key sequence against
one fresh cache instance (state init) and report hits / (hits+misses) * 100.
The float64 division is NaN when hits+misses is zero (empty trace), which
the embedding reports as none. -/
def runStringTrace {σ : Type} (c : CacheModel σ) (init : σ) (ops : List String) : Option ℚ :=
  let fin := ops.foldl (stringTraceStep c) (init, 0, 0)
  if fin.2.1 + fin.2.2 = 0 then none
  else some ((fin.2.1 : ℚ) / ((fin.2.1 : ℚ) + (fin.2.2 : ℚ)) * 100)

/-- Trace operation of the action-typed Meta trace, mirroring the loader
row with an action string (GET or SET) and a key. -/
structure TraceOp where
  action : String
  key : String

/-- One replay step of runMetaTrace: a GET behaves as read-through and is
counted; a SET stores unconditionally without touching the counters; any
other action is ignored. -/
def metaTraceStep {σ : Type} (c : CacheModel σ) (acc : σ × ℕ × ℕ) (op : TraceOp) :
    σ × ℕ × ℕ :=
  if op.action = "GET" then
    match c.get acc.1 op.key with
    | (some _, st) => (st, acc.2.1 + 1, acc.2.2)
    | (none, st) => (c.set st op.key op.key, acc.2.1, acc.2.2 + 1)
  else if op.action = "SET" then (c.set acc.1 op.key op.key, acc.2.1, acc.2.2)
  else acc

/-- Embedding of runMetaTrace: replay the action-typed operation sequence
and report hits / (hits+misses) * 100; the division is NaN (none) when the
trace holds no GET operation. -/
def runMetaTrace {σ : Type} (c : CacheModel σ) (init : σ) (ops : List TraceOp) : Option ℚ :=
  let fin := ops.foldl (metaTraceStep c) (init, 0, 0)
  if fin.2.1 + fin.2.2 = 0 then none
  else some ((fin.2.1 : ℚ) / ((fin.2.1 : ℚ) + (fin.2.2 : ℚ)) * 100)

/-- Specification-level hit and miss counters of the read-through replay,
written as direct recursion over the key sequence. -/
def specCounts {σ : Type} (c : CacheModel σ) : σ → List String → ℕ × ℕ
  | _, [] => (0, 0)
  | st, k :: ks =>
    match c.get st k with
    | (some _, st2) =>
      let hm := specCounts c st2 ks
      (hm.1 + 1, hm.2)
    | (none, st2) =>
      let hm := specCounts c (c.set st2 k k) ks
      (hm.1, hm.2 + 1)

/-- Unbounded association-list cache used to instantiate the opaque cache
model on concrete traces: Get does not mutate, Set prepends. -/
def assocCache : CacheModel (List (String × String)) where
  get st k := (st.lookup k, st)
  set st k v := (k, v) :: st

/-! ## Zipfian workload generator (internal/workload, GenerateZipfInt) -/

/-- Multiplier of the 128-bit PCG linear step, from the Go standard
library source of math/rand/v2 (mulHi shifted beside mulLo). -/
def pcgMul : ℕ := 2549297995355413924 * 2 ^ 64 + 4865540595714422341

/-- Increment of the 128-bit PCG linear step, from math/rand/v2. -/
def pcgInc : ℕ := 6364136223846793005 * 2 ^ 64 + 1442695040888963407

/-- One 128-bit PCG state advance: state * mul + inc, modulo 2 ^ 128. -/
def pcgNext (s : ℕ) : ℕ := (s * pcgMul + pcgInc) % 2 ^ 128

/-- Constant of the DXSM output permutation of math/rand/v2. -/
def pcgCheapMul : ℕ := 0xda942042e4dd58b5

/-- DXSM output function of math/rand/v2: mixes the high state word with
xorshifts and multiplies, then multiplies by the low word made odd; the
result is a uint64. -/
def pcgOutput (s : ℕ) : ℕ :=
  let hi := s / 2 ^ 64
  let lo := s % 2 ^ 64
  let h1 := hi ^^^ (hi >>> 32)
  let h2 := (h1 * pcgCheapMul) % 2 ^ 64
  let h3 := h2 ^^^ (h2 >>> 48)
  (h3 * (lo ||| 1)) % 2 ^ 64

/-- Initial PCG state of rand.New(rand.NewPCG(seed, seed+1)): the high
word is seed and the low word is seed+1, each reduced to uint64. -/
def pcgInit (seed : ℕ) : ℕ := (seed % 2 ^ 64) * 2 ^ 64 + ((seed + 1) % 2 ^ 64)

/-- State of the PCG after i+1 advances from the seeded state (the Go
generator advances before producing each output). -/
def pcgStates (seed : ℕ) : ℕ → ℕ
  | 0 => pcgNext (pcgInit seed)
  | i + 1 => pcgNext (pcgStates seed i)

/-- Value of rand.Float64 for a given PCG state: the low 53 bits of the
uint64 output scaled by 2 ^ (-53), an exact dyadic rational in [0, 1). -/
def pcgFloat64 (s : ℕ) : ℚ := ((pcgOutput s % 2 ^ 53 : ℕ) : ℚ) / 2 ^ 53

/-- Stream of rand.Float64 values drawn from the generator seeded with
(seed, seed+1). -/
def pcgFloatStream (seed : ℕ) (i : ℕ) : ℚ := pcgFloat64 (pcgStates seed i)

/-- Abstract model of the float64 power function math.Pow, the one
standard-library numeric the generator uses that has no exact rational
counterpart.  Theorems state the properties of real powers they need as
hypotheses on this field. -/
structure FloatModel where
  pow : ℚ → ℚ → ℚ

/-- Truncation of a float64 to a Go int: toward zero. -/
def goTrunc (x : ℚ) : ℤ := if 0 ≤ x then ⌊x⌋ else ⌈x⌉

/-- Embedding of computeZeta: the harmonic-like sum of i ^ (-theta) for i
from 1 to n. -/
def computeZeta (fm : FloatModel) (n : ℕ) (theta : ℚ) : ℚ :=
  ((List.range n).map (fun i : ℕ => 1 / fm.pow ((i : ℚ) + 1) theta)).sum

/-- Value of one Zipf draw given the precomputed constants and the uniform
variate u, mirroring the loop body of GenerateZipfInt including the final
clamp of values at or above keySpace down to keySpace - 1. -/
def zipfDraw (fm : FloatModel) (keySpace : ℕ) (spread zetaN alpha eta halfPowTheta u : ℚ) :
    ℤ :=
  let uz := u * zetaN
  let result : ℤ :=
    if uz < 1 then 0
    else if uz < halfPowTheta then 1
    else goTrunc (spread * fm.pow (eta * u - eta + 1) alpha)
  if (keySpace : ℤ) ≤ result then (keySpace : ℤ) - 1 else result

/-- Embedding of GenerateZipfInt with the PRNG abstracted to a stream u of
uniform variates: precompute spread, the two zeta sums, alpha, eta and
1 + 0.5 ^ theta, then map the per-draw computation over n indices. -/
def generateZipfIntWith (fm : FloatModel) (n keySpace : ℕ) (theta : ℚ) (u : ℕ → ℚ) :
    List ℤ :=
  let spread : ℚ := (keySpace : ℚ) + 1
  let zeta2 := computeZeta fm 2 theta
  let zetaN := computeZeta fm (keySpace + 1) theta
  let alpha := 1 / (1 - theta)
  let eta := (1 - fm.pow (2 / spread) (1 - theta)) / (1 - zeta2 / zetaN)
  let halfPowTheta := 1 + fm.pow (1 / 2) theta
  (List.range n).map (fun i => zipfDraw fm keySpace spread zetaN alpha eta halfPowTheta (u i))

/-- Embedding of GenerateZipfInt: the uniform stream is the Float64 stream
of the PCG seeded deterministically with (seed, seed+1). -/
def GenerateZipfInt (fm : FloatModel) (n keySpace : ℕ) (theta : ℚ) (seed : ℕ) : List ℤ :=
  generateZipfIntWith fm n keySpace theta (pcgFloatStream seed)

/-! ## Set-with-eviction latency benchmark (internal/benchmark/latency.go) -/

/-- Cache capacity of the latency benchmarks (latencyCacheSize in the
revision of latency.go that pre-fills before the timed eviction loop). -/
def latencyCacheSize : ℕ := 16384

/-- Key pool RunLatency hands to benchSetEvict: strconv.Itoa of every
integer below 20 times the cache capacity; keys are modelled by the
integers themselves since Itoa is injective. -/
def latencyEvictKeyPool (capacity : ℕ) : List ℕ := List.range (20 * capacity)

/-- Keys benchSetEvict writes while pre-filling the cache to capacity
before the timer is reset: the first capacity keys of the pool. -/
def benchSetEvictPrefill (capacity : ℕ) (keys : List ℕ) : List ℕ := keys.take capacity

/-- Keys available to the timed loop of benchSetEvict: the pool beyond the
pre-filled range, the slice of keys past index latencyCacheSize. -/
def benchSetEvictTimedKeys (capacity : ℕ) (keys : List ℕ) : List ℕ := keys.drop capacity

/-- Key the timed loop of benchSetEvict writes at iteration i:
evictKeys[i % len(evictKeys)]. -/
def benchSetEvictTimedKey (capacity : ℕ) (keys : List ℕ) (i : ℕ) : ℕ :=
  (benchSetEvictTimedKeys capacity keys).getD
    (i % (benchSetEvictTimedKeys capacity keys).length) 0

/-! ## Lemmas about the aggregator -/

/-- Unfolding equation of specChunks on a cons cell. -/
theorem specChunks_cons_eq (e : RankedEntry) (l : List RankedEntry) :
    specChunks (e :: l)
      = match specChunks l with
        | [] => [[e]]
        | [] :: gs => [e] :: [] :: gs
        | (x :: g) :: gs =>
          if Round3 e.score = Round3 x.score then (e :: x :: g) :: gs
          else [e] :: (x :: g) :: gs := rfl

/-- Normal form of specChunks on a non-empty list: the first chunk is the
maximal run of entries whose rounded scores equal the rounded score of the
head, and the rest is chunked recursively. -/
theorem specChunks_cons (e : RankedEntry) (rest : List RankedEntry) :
    specChunks (e :: rest)
      = (e :: rest.takeWhile (fun x => decide (Round3 x.score = Round3 e.score)))
        :: specChunks (rest.dropWhile (fun x => decide (Round3 x.score = Round3 e.score))) := by
  induction rest generalizing e with
  | nil => simp [specChunks]
  | cons f rs ih =>
    have hrec := ih f
    rw [specChunks_cons_eq, hrec]
    by_cases h : Round3 f.score = Round3 e.score
    · dsimp only
      rw [if_pos h.symm]
      simp [List.takeWhile_cons, List.dropWhile_cons, h]
    · dsimp only
      rw [if_neg (fun hh => h hh.symm)]
      simp [List.takeWhile_cons, List.dropWhile_cons, h]
      rw [← hrec]

/-- Every placement recorded by withPlacements is at least the starting
placement. -/
theorem withPlacements_pos_le (gs : List (List RankedEntry)) :
    ∀ (pos : ℕ) (pg : ℕ × List RankedEntry), pg ∈ withPlacements pos gs → pos ≤ pg.1 := by
  induction gs with
  | nil => intro pos pg h; simp [withPlacements] at h
  | cons g gs ih =>
    intro pos pg h
    rw [withPlacements] at h
    rcases List.mem_cons.mp h with rfl | h2
    · exact Nat.le_refl pos
    · exact Nat.le_trans (Nat.le_add_right pos g.length) (ih _ _ h2)

/-- No tie group occupies a placement strictly below the starting
placement. -/
theorem medalAt_lt (p pos : ℕ) (gs : List (List RankedEntry)) (h : p < pos) :
    medalAt p (withPlacements pos gs) = [] := by
  rw [medalAt, List.find?_eq_none.mpr]
  intro pg hpg
  have := withPlacements_pos_le gs pos pg hpg
  simp only [decide_eq_true_eq]
  omega

/-- Computation of medalAt on a cons cell. -/
theorem medalAt_cons (p pos : ℕ) (g : List RankedEntry) (l : List (ℕ × List RankedEntry)) :
    medalAt p ((pos, g) :: l)
      = if pos = p then g.map (fun x => x.name) else medalAt p l := by
  rw [medalAt, List.find?_cons]
  by_cases h : pos = p
  · simp [h]
  · simp only [h, decide_False]
    rw [medalAt]
    simp [h]

/-- Bridge between the implementation loop of assignPoints and the
specification-level chunking, in a form suitable for strong induction on
the list length. -/
theorem assignPointsLoop_eq_aux :
    ∀ (n : ℕ) (entries : List RankedEntry), entries.length ≤ n → ∀ pos : ℕ,
    assignPointsLoop entries pos
      = ((withPlacements pos (specChunks entries)).map
          (fun pg => (pg.1, pg.2.map (fun x => x.name))),
         ⟨medalAt 0 (withPlacements pos (specChunks entries)),
          medalAt 1 (withPlacements pos (specChunks entries)),
          medalAt 2 (withPlacements pos (specChunks entries))⟩) := by
  intro n
  induction n with
  | zero =>
    intro entries h pos
    have he : entries = [] := List.length_eq_zero.mp (Nat.le_zero.mp h)
    subst he
    simp [assignPointsLoop, specChunks, withPlacements, medalAt]
  | succ n ih =>
    intro entries h pos
    match entries with
    | [] => simp [assignPointsLoop, specChunks, withPlacements, medalAt]
    | e :: rest =>
      rw [assignPointsLoop, specChunks_cons, withPlacements]
      have hlen : (rest.dropWhile (fun x => decide (Round3 x.score = Round3 e.score))).length ≤ n := by
        have h1 : (rest.dropWhile (fun x => decide (Round3 x.score = Round3 e.score))).length
            ≤ rest.length :=
          (List.dropWhile_sublist (fun x : RankedEntry =>
            decide (Round3 x.score = Round3 e.score))).length_le
        simp only [List.length_cons] at h
        omega
      have hrec := ih (rest.dropWhile (fun x => decide (Round3 x.score = Round3 e.score))) hlen
        (pos + (e.name ::
          (rest.takeWhile (fun x => decide (Round3 x.score = Round3 e.score))).map
            (fun x => x.name)).length)
      rw [hrec]
      have hl : (e.name ::
          (rest.takeWhile (fun x => decide (Round3 x.score = Round3 e.score))).map
            (fun x => x.name)).length
          = (e :: rest.takeWhile (fun x => decide (Round3 x.score = Round3 e.score))).length := by
        simp
      rw [hl]
      simp [medalAt_cons, Prod.ext_iff]

/-- Bridge between the implementation loop of assignPoints and the
specification-level chunking: the loop emits exactly the Round3 tie groups
with their cumulative placements, and the medal sets are the groups landing
on placements 0, 1 and 2. -/
theorem assignPointsLoop_eq (entries : List RankedEntry) (pos : ℕ) :
    assignPointsLoop entries pos
      = ((withPlacements pos (specChunks entries)).map
          (fun pg => (pg.1, pg.2.map (fun x => x.name))),
         ⟨medalAt 0 (withPlacements pos (specChunks entries)),
          medalAt 1 (withPlacements pos (specChunks entries)),
          medalAt 2 (withPlacements pos (specChunks entries))⟩) :=
  assignPointsLoop_eq_aux entries.length entries (Nat.le_refl _) pos

/-- Concatenating the spec-level tie groups gives back the original list:
the chunking is a partition into contiguous runs. -/
theorem specChunks_join (l : List RankedEntry) : (specChunks l).flatten = l := by
  induction l with
  | nil => simp [specChunks]
  | cons e rest ih =>
    rw [specChunks_cons_eq]
    cases hc : specChunks rest with
    | nil =>
      rw [hc] at ih
      simp at ih
      simp [ih]
    | cons g0 gs =>
      rw [hc] at ih
      cases g0 with
      | nil =>
        dsimp only
        simp at ih ⊢
        exact ih
      | cons x g2 =>
        dsimp only
        by_cases h : Round3 e.score = Round3 x.score
        · rw [if_pos h]
          simp at ih ⊢
          exact ih
        · rw [if_neg h]
          simp at ih ⊢
          exact ih

/-- Every spec-level tie group is constant with respect to Round3: all its
members share one rounded score. -/
theorem specChunks_const (l : List RankedEntry) :
    ∀ g ∈ specChunks l, ∃ r : ℚ, ∀ a ∈ g, Round3 a.score = r := by
  induction l with
  | nil => simp [specChunks]
  | cons e rest ih =>
    rw [specChunks_cons_eq]
    cases hc : specChunks rest with
    | nil =>
      intro g hg
      simp at hg
      subst hg
      refine ⟨Round3 e.score, ?_⟩
      intro a ha
      simp at ha
      subst ha
      rfl
    | cons g0 gs =>
      rw [hc] at ih
      cases g0 with
      | nil =>
        intro g hg
        dsimp only at hg
        rcases List.mem_cons.mp hg with rfl | h2
        · exact ⟨Round3 e.score, by intro a ha; simp at ha; subst ha; rfl⟩
        · exact ih g h2
      | cons x g2 =>
        by_cases h : Round3 e.score = Round3 x.score
        · dsimp only
          rw [if_pos h]
          intro g hg
          rcases List.mem_cons.mp hg with rfl | h2
          · obtain ⟨r, hr⟩ := ih (x :: g2) (List.mem_cons_self _ _)
            refine ⟨r, ?_⟩
            intro a ha
            rcases List.mem_cons.mp ha with rfl | h3
            · rw [h]
              exact hr x (List.mem_cons_self _ _)
            · exact hr a h3
          · exact ih g (List.mem_cons_of_mem _ h2)
        · dsimp only
          rw [if_neg h]
          intro g hg
          rcases List.mem_cons.mp hg with rfl | h2
          · exact ⟨Round3 e.score, by intro a ha; simp at ha; subst ha; rfl⟩
          · exact ih g h2

/-- Consecutive placements recorded by withPlacements advance by exactly
the size of the earlier tie group. -/
theorem withPlacements_chain (gs : List (List RankedEntry)) :
    ∀ pos : ℕ, (withPlacements pos gs).Chain' (fun a b => b.1 = a.1 + a.2.length) := by
  induction gs with
  | nil => intro pos; simp [withPlacements]
  | cons g gs ih =>
    intro pos
    rw [withPlacements]
    apply List.chain'_cons'.mpr
    refine ⟨?_, ih _⟩
    intro b hb
    cases gs with
    | nil => simp [withPlacements] at hb
    | cons g2 gs2 =>
      rw [withPlacements] at hb
      simp at hb
      rw [← hb]

/-- Per-benchmark point lists expressed through the spec-level tie groups:
every member of a tie group receives the point value of the placement the
group occupies. -/
theorem benchScores_eq (entries : List RankedEntry) :
    benchScores entries
      = (withPlacements 0 (specChunks entries)).flatMap
          (fun pg => pg.2.map (fun x => (x.name, pointsFor pg.1))) := by
  rw [benchScores, assignPointsLoop_eq]
  simp [List.flatMap_map, List.map_map]
  rfl

/-- C1: walking a sorted per-benchmark result list, contiguous entries
whose scores are equal after rounding to 3 decimal places form one tie
group occupying a single placement; the groups partition the list, every
member of a group receives the point value of the placement the group holds
(1st=10, 2nd=7, 3rd=5, 4th=4, 5th=3, 6th=2, 7th=1, 8th and later 0), and
the placement of each next group advances by the size of the group before it.
On the scores 85.2341, 85.2342, 80 the two leading entries form a 2-way
gold tie worth 10 points each, no silver is awarded, and the third entry
takes bronze with 5 points. -/
theorem assignPoints_tie_collapse :
    (∀ entries : List RankedEntry,
        (assignPointsLoop entries 0).1
          = (withPlacements 0 (specChunks entries)).map
              (fun pg => (pg.1, pg.2.map (fun x => x.name)))
        ∧ benchScores entries
            = (withPlacements 0 (specChunks entries)).flatMap
                (fun pg => pg.2.map (fun x => (x.name, pointsFor pg.1)))
        ∧ (specChunks entries).flatten = entries
        ∧ (∀ g ∈ specChunks entries, ∃ r : ℚ, ∀ a ∈ g, Round3 a.score = r)
        ∧ ((assignPointsLoop entries 0).1).Chain' (fun a b => b.1 = a.1 + a.2.length))
    ∧ (pointsFor 0 = 10 ∧ pointsFor 1 = 7 ∧ pointsFor 2 = 5 ∧ pointsFor 3 = 4 ∧
        pointsFor 4 = 3 ∧ pointsFor 5 = 2 ∧ pointsFor 6 = 1)
    ∧ (∀ pos : ℕ, 7 ≤ pos → pointsFor pos = 0)
    ∧ benchScores [⟨"a", 85.2341⟩, ⟨"b", 85.2342⟩, ⟨"c", 80⟩]
        = [("a", 10), ("b", 10), ("c", 5)]
    ∧ (assignPointsLoop [⟨"a", 85.2341⟩, ⟨"b", 85.2342⟩, ⟨"c", 80⟩] 0).2
        = ⟨["a", "b"], [], ["c"]⟩ := by
  refine ⟨?_, ⟨rfl, rfl, rfl, rfl, rfl, rfl, rfl⟩, ?_, ?_, ?_⟩
  · intro entries
    refine ⟨?_, benchScores_eq entries, specChunks_join entries, specChunks_const entries, ?_⟩
    · rw [assignPointsLoop_eq]
    · rw [assignPointsLoop_eq]
      dsimp only
      rw [List.chain'_map]
      have := withPlacements_chain (specChunks entries) 0
      apply List.Chain'.imp ?_ this
      intro a b hab
      simp [hab]
  · intro pos h
    rw [pointsFor, placementPoints]
    rw [List.getD_eq_default]
    simp
    omega
  · norm_num [benchScores, assignPointsLoop, Round3, mathRound, pointsFor, placementPoints]
  · norm_num [assignPointsLoop, Round3, mathRound]

/-- Witness for the placement-points hypothesis of C1: a 9th-place member
receives 0 points, and the concrete tie-collapse scenario holds. -/
theorem assignPoints_tie_collapse_witness :
    pointsFor 8 = 0
    ∧ benchScores [⟨"a", 85.2341⟩, ⟨"b", 85.2342⟩, ⟨"c", 80⟩]
        = [("a", 10), ("b", 10), ("c", 5)] :=
  ⟨assignPoints_tie_collapse.2.2.1 8 (by norm_num), assignPoints_tie_collapse.2.2.2.1⟩

/-- Computation of medalAt on the empty list. -/
theorem medalAt_nil (p : ℕ) : medalAt p [] = [] := rfl

/-- C2: when the leading tie group of a benchmark holds more than 3
members, the whole group takes gold and no silver or bronze is awarded for
that benchmark; in the limit where every entry is tied, every entry takes
gold and the 10 points of the gold placement, with no silver or bronze. -/
theorem assignPoints_oversized_gold_tie :
    (∀ (entries : List RankedEntry) (g : List RankedEntry) (gs : List (List RankedEntry)),
        specChunks entries = g :: gs → 3 < g.length →
        (assignPointsLoop entries 0).2 = ⟨g.map (fun x => x.name), [], []⟩)
    ∧ (∀ (e : RankedEntry) (rest : List RankedEntry),
        (∀ a ∈ e :: rest, Round3 a.score = Round3 e.score) →
        (assignPointsLoop (e :: rest) 0).2 = ⟨(e :: rest).map (fun x => x.name), [], []⟩
        ∧ benchScores (e :: rest) = (e :: rest).map (fun x => (x.name, 10))) := by
  constructor
  · intro entries g gs hchunks hlen
    rw [assignPointsLoop_eq, hchunks, withPlacements]
    rw [medalAt_cons, medalAt_cons, medalAt_cons]
    simp only [Nat.zero_add]
    rw [if_pos trivial, if_neg (by omega), if_neg (by omega)]
    rw [medalAt_lt 1 g.length gs (by omega), medalAt_lt 2 g.length gs (by omega)]
  · intro e rest htied
    have hchunks : specChunks (e :: rest) = [e :: rest] := by
      rw [specChunks_cons]
      have htake : rest.takeWhile (fun x => decide (Round3 x.score = Round3 e.score)) = rest :=
        List.takeWhile_eq_self_iff.mpr
          (fun x hx => decide_eq_true (htied x (List.mem_cons_of_mem e hx)))
      have hdrop : rest.dropWhile (fun x => decide (Round3 x.score = Round3 e.score)) = [] :=
        List.dropWhile_eq_nil_iff.mpr
          (fun x hx => decide_eq_true (htied x (List.mem_cons_of_mem e hx)))
      rw [htake, hdrop]
      rfl
    constructor
    · rw [assignPointsLoop_eq, hchunks, withPlacements]
      rw [medalAt_cons, medalAt_cons, medalAt_cons]
      rw [if_pos rfl, if_neg (by omega), if_neg (by omega)]
      rw [withPlacements, medalAt_nil, medalAt_nil]
    · rw [benchScores_eq, hchunks, withPlacements, withPlacements]
      simp [pointsFor, placementPoints]

/-- Witness for C2: a 4-way tie for gold on one benchmark takes the whole
podium, and a fully tied pair both take gold with 10 points. -/
theorem assignPoints_oversized_gold_tie_witness :
    (assignPointsLoop [⟨"a", (1 : ℚ)⟩, ⟨"b", 1⟩, ⟨"c", 1⟩, ⟨"d", 1⟩] 0).2
        = ⟨["a", "b", "c", "d"], [], []⟩
    ∧ ((assignPointsLoop [⟨"x", (2 : ℚ)⟩, ⟨"y", 2⟩] 0).2 = ⟨["x", "y"], [], []⟩
        ∧ benchScores [⟨"x", (2 : ℚ)⟩, ⟨"y", 2⟩] = [("x", 10), ("y", 10)]) := by
  refine ⟨?_, ?_⟩
  · exact assignPoints_oversized_gold_tie.1
      [⟨"a", 1⟩, ⟨"b", 1⟩, ⟨"c", 1⟩, ⟨"d", 1⟩]
      [⟨"a", 1⟩, ⟨"b", 1⟩, ⟨"c", 1⟩, ⟨"d", 1⟩] []
      (by norm_num [specChunks, Round3, mathRound]) (by norm_num)
  · exact assignPoints_oversized_gold_tie.2 ⟨"x", 2⟩ [⟨"y", 2⟩]
      (by intro a ha; simp at ha; rcases ha with rfl | rfl <;> rfl)

/-- Characterization of the FormatWinners loop: it returns the names of
the longest prefix matching the best rounded score, together with the
first entry beyond that prefix. -/
theorem formatWinnersLoop_eq (best : ℚ) (l : List WinnerEntry) :
    formatWinnersLoop best l
      = ((l.takeWhile (fun x => decide (Round3 x.score = best))).map (fun x => x.name),
         (l.dropWhile (fun x => decide (Round3 x.score = best))).head?) := by
  induction l with
  | nil => simp [formatWinnersLoop]
  | cons e rest ih =>
    rw [formatWinnersLoop, List.takeWhile_cons, List.dropWhile_cons]
    by_cases h : Round3 e.score = best
    · simp only [h, decide_True, if_true]
      rw [ih]
      simp
    · simp [h]

/-- C10: FormatWinners returns as winners exactly the longest prefix of
entries whose rounded scores equal the rounded score of the first entry, and as
runner-up the first subsequent entry with a different rounded score; the
runner-up is none when every entry ties with the first, and on the empty
list both outputs are empty. -/
theorem formatWinners_spec :
    FormatWinners [] = ([], none)
    ∧ (∀ (e : WinnerEntry) (rest : List WinnerEntry),
        FormatWinners (e :: rest)
          = (((e :: rest).takeWhile
                (fun x => decide (Round3 x.score = Round3 e.score))).map (fun x => x.name),
             ((e :: rest).dropWhile
                (fun x => decide (Round3 x.score = Round3 e.score))).head?))
    ∧ (∀ (e : WinnerEntry) (rest : List WinnerEntry),
        (∀ a ∈ e :: rest, Round3 a.score = Round3 e.score) →
        (FormatWinners (e :: rest)).1 = (e :: rest).map (fun x => x.name)
        ∧ (FormatWinners (e :: rest)).2 = none) := by
  have hmain : ∀ (e : WinnerEntry) (rest : List WinnerEntry),
      FormatWinners (e :: rest)
        = (((e :: rest).takeWhile
              (fun x => decide (Round3 x.score = Round3 e.score))).map (fun x => x.name),
           ((e :: rest).dropWhile
              (fun x => decide (Round3 x.score = Round3 e.score))).head?) := by
    intro e rest
    rw [FormatWinners, formatWinnersLoop_eq]
  refine ⟨rfl, hmain, ?_⟩
  intro e rest htied
  have htake : (e :: rest).takeWhile (fun x => decide (Round3 x.score = Round3 e.score))
      = e :: rest :=
    List.takeWhile_eq_self_iff.mpr (fun x hx => decide_eq_true (htied x hx))
  have hdrop : (e :: rest).dropWhile (fun x => decide (Round3 x.score = Round3 e.score))
      = [] :=
    List.dropWhile_eq_nil_iff.mpr (fun x hx => decide_eq_true (htied x hx))
  rw [hmain e rest, htake, hdrop]
  exact ⟨rfl, rfl⟩

/-- Witness for C10: on a list where the two leading entries tie after
rounding and a third differs, the winners are the leading pair and the
runner-up is the third entry; on a fully tied pair the runner-up is none. -/
theorem formatWinners_spec_witness :
    FormatWinners [⟨"a", (85.2341 : ℚ)⟩, ⟨"b", 85.2342⟩, ⟨"c", 80⟩]
      = (["a", "b"], some ⟨"c", 80⟩)
    ∧ (FormatWinners [⟨"x", (2 : ℚ)⟩, ⟨"y", 2⟩]).1 = ["x", "y"]
    ∧ (FormatWinners [⟨"x", (2 : ℚ)⟩, ⟨"y", 2⟩]).2 = none := by
  have h2 := formatWinners_spec.2.2 ⟨"x", (2 : ℚ)⟩ [⟨"y", 2⟩]
    (by intro a ha; simp at ha; rcases ha with rfl | rfl <;> rfl)
  refine ⟨?_, h2.1, h2.2⟩
  rw [formatWinners_spec.2.1 ⟨"a", (85.2341 : ℚ)⟩ [⟨"b", 85.2342⟩, ⟨"c", 80⟩]]
  norm_num [Round3, mathRound, List.takeWhile, List.dropWhile]

/-- C8: with zero participating benchmark result lists (no hit-rate,
latency, throughput or memory data), ComputeRankings returns the nil
ranking and the nil medal table instead of an error value or a non-empty
result. -/
theorem computeRankings_empty_input (r : Results) (h : r.noBenchmarkData) :
    ComputeRankings r = ([], none) := by
  obtain ⟨h1, h2, h3, h4⟩ := h
  have e1 : aggHitRate (⟨[], [], [], []⟩ : AggState) r.hitRate = ⟨[], [], [], []⟩ := by
    cases hr : r.hitRate with
    | none => rfl
    | some d =>
      rw [hr] at h1
      simp only [noHitRateData] at h1
      obtain ⟨c1, c2, c3, c4, c5, c6, c7, c8p, c9⟩ := h1
      simp [aggHitRate, hitRateBenchList, c1, c2, c3, c4, c5, c6, c7, c8p, c9]
  have e2 : aggLatency (⟨[], [], [], []⟩ : AggState) r.latency = ⟨[], [], [], []⟩ := by
    cases hl : r.latency with
    | none => rfl
    | some d =>
      rw [hl] at h2
      simp only [noLatencyData] at h2
      obtain ⟨c1, c2, c3⟩ := h2
      simp [aggLatency, c1, c2, c3]
  have e3 : aggThroughput (⟨[], [], [], []⟩ : AggState) r.throughput = ⟨[], [], [], []⟩ := by
    cases ht : r.throughput with
    | none => rfl
    | some d =>
      rw [ht] at h3
      simp only [noThroughputData] at h3
      obtain ⟨c1, c2, c3, c4, c5⟩ := h3
      simp [aggThroughput, throughputBenchList, c1, c2, c3, c4, c5]
  have e4 : aggMemory (⟨[], [], [], []⟩ : AggState) r.memory = ⟨[], [], [], []⟩ := by
    cases hm : r.memory with
    | none => rfl
    | some d =>
      rw [hm] at h4
      simp only [noMemoryData] at h4
      simp [aggMemory, h4]
  rw [ComputeRankings, e1, e2, e3, e4]
  rfl

/-- Witness for C8: the fully absent input (all four category pointers
nil) yields the nil ranking and nil medal table. -/
theorem computeRankings_empty_input_witness :
    ComputeRankings ⟨none, none, none, none⟩ = ([], none) :=
  computeRankings_empty_input ⟨none, none, none, none⟩
    ⟨trivial, trivial, trivial, trivial⟩

/-- Accumulator bridge for the read-through replay: folding the step
function starting from counters (h, m) adds the specification-level hit
and miss counts of the remaining trace. -/
theorem foldl_stringTraceStep {σ : Type} (c : CacheModel σ) (ops : List String) :
    ∀ (st : σ) (h m : ℕ),
      (ops.foldl (stringTraceStep c) (st, h, m)).2
        = (h + (specCounts c st ops).1, m + (specCounts c st ops).2) := by
  induction ops with
  | nil => intro st h m; simp [specCounts]
  | cons k ks ih =>
    intro st h m
    rcases hg : c.get st k with ⟨v, st2⟩
    cases v with
    | some w =>
      have hstep : stringTraceStep c (st, h, m) k = (st2, h + 1, m) := by
        simp [stringTraceStep, hg]
      have hspec : specCounts c st (k :: ks)
          = ((specCounts c st2 ks).1 + 1, (specCounts c st2 ks).2) := by
        simp [specCounts, hg]
      rw [List.foldl_cons, hstep, ih st2 (h + 1) m, hspec]
      dsimp only
      simp only [Prod.mk.injEq]
      constructor <;> first | trivial | omega
    | none =>
      have hstep : stringTraceStep c (st, h, m) k = (c.set st2 k k, h, m + 1) := by
        simp [stringTraceStep, hg]
      have hspec : specCounts c st (k :: ks)
          = ((specCounts c (c.set st2 k k) ks).1, (specCounts c (c.set st2 k k) ks).2 + 1) := by
        simp [specCounts, hg]
      rw [List.foldl_cons, hstep, ih (c.set st2 k k) h (m + 1), hspec]
      dsimp only
      simp only [Prod.mk.injEq]
      constructor <;> first | trivial | omega

/-- Hits and misses of the read-through replay partition the trace: their
sum is the trace length. -/
theorem specCounts_sum {σ : Type} (c : CacheModel σ) (ops : List String) :
    ∀ st : σ, (specCounts c st ops).1 + (specCounts c st ops).2 = ops.length := by
  induction ops with
  | nil => intro st; simp [specCounts]
  | cons k ks ih =>
    intro st
    rcases hg : c.get st k with ⟨v, st2⟩
    cases v with
    | some w =>
      have hspec : specCounts c st (k :: ks)
          = ((specCounts c st2 ks).1 + 1, (specCounts c st2 ks).2) := by
        simp [specCounts, hg]
      rw [hspec, List.length_cons]
      have := ih st2
      omega
    | none =>
      have hspec : specCounts c st (k :: ks)
          = ((specCounts c (c.set st2 k k) ks).1, (specCounts c (c.set st2 k k) ks).2 + 1) := by
        simp [specCounts, hg]
      rw [hspec, List.length_cons]
      have := ih (c.set st2 k k)
      omega

/-- C5: on a non-empty key sequence the read-through replay runs the whole
sequence against one cache instance, counting a hit per present key and a
miss (followed by Set of the key to itself) per absent key, with hits plus
misses equal to the sequence length, and returns hits / (hits + misses)
* 100. -/
theorem runStringTrace_readThrough {σ : Type} (c : CacheModel σ) (init : σ)
    (ops : List String) (hne : ops ≠ []) :
    (specCounts c init ops).1 + (specCounts c init ops).2 = ops.length
    ∧ runStringTrace c init ops
      = some (((specCounts c init ops).1 : ℚ)
          / (((specCounts c init ops).1 : ℚ) + ((specCounts c init ops).2 : ℚ)) * 100) := by
  have hsum := specCounts_sum c ops init
  refine ⟨hsum, ?_⟩
  simp only [runStringTrace]
  have hfold := foldl_stringTraceStep c ops init 0 0
  have h1 : (ops.foldl (stringTraceStep c) (init, 0, 0)).2.1 = (specCounts c init ops).1 := by
    rw [hfold]
    simp
  have h2 : (ops.foldl (stringTraceStep c) (init, 0, 0)).2.2 = (specCounts c init ops).2 := by
    rw [hfold]
    simp
  rw [h1, h2, if_neg]
  intro h0
  exact hne (List.length_eq_zero.mp (by omega))

/-- Witness for C5: replaying the two-element trace a, a against the fresh
association-list cache gives one miss then one hit. -/
theorem runStringTrace_readThrough_witness :
    (specCounts assocCache [] ["a", "a"]).1 + (specCounts assocCache [] ["a", "a"]).2 = 2
    ∧ runStringTrace assocCache [] ["a", "a"]
      = some (((specCounts assocCache [] ["a", "a"]).1 : ℚ)
          / (((specCounts assocCache [] ["a", "a"]).1 : ℚ)
            + ((specCounts assocCache [] ["a", "a"]).2 : ℚ)) * 100) :=
  runStringTrace_readThrough assocCache [] ["a", "a"] (by simp)

/-- Counterexample to C6 as stated: a non-empty action-typed trace holding
one SET and no GET leaves both counters at zero, so the Go computation
divides zero by zero and yields NaN, which is not a value in the interval
0 to 100 (the embedding reports the NaN division as none). -/
theorem hitRate_nan_counterexample :
    ¬ ∃ q : ℚ, runMetaTrace assocCache [] [⟨"SET", "k"⟩] = some q ∧ 0 ≤ q ∧ q ≤ 100 := by
  intro hex
  obtain ⟨q, hq, _⟩ := hex
  simp [runMetaTrace, metaTraceStep, assocCache] at hq

/-- C6 amended: whenever the simulator counts at least one Get (so the
division is defined and no NaN arises), the computed hit rate lies in the
interval 0 to 100, for both the read-through and the action-typed replay. -/
theorem hitRate_bounds_amended :
    (∀ (σ : Type) (c : CacheModel σ) (init : σ) (ops : List String) (q : ℚ),
        runStringTrace c init ops = some q → 0 ≤ q ∧ q ≤ 100)
    ∧ (∀ (σ : Type) (c : CacheModel σ) (init : σ) (ops : List TraceOp) (q : ℚ),
        runMetaTrace c init ops = some q → 0 ≤ q ∧ q ≤ 100) := by
  have key : ∀ h m : ℕ, 0 ≤ (h : ℚ) / ((h : ℚ) + (m : ℚ)) * 100
      ∧ (h : ℚ) / ((h : ℚ) + (m : ℚ)) * 100 ≤ 100 := by
    intro h m
    rcases Nat.eq_zero_or_pos (h + m) with hz | hpos
    · have hh : h = 0 := by omega
      have hm : m = 0 := by omega
      subst hh
      subst hm
      norm_num
    · have hq : 0 < (h : ℚ) + (m : ℚ) := by
        have h2 : (0 : ℚ) < ((h + m : ℕ) : ℚ) := by exact_mod_cast hpos
        push_cast at h2
        linarith
      have hle : (h : ℚ) ≤ (h : ℚ) + (m : ℚ) := by
        have h3 : (0 : ℚ) ≤ (m : ℚ) := by positivity
        linarith
      have hdiv : (h : ℚ) / ((h : ℚ) + (m : ℚ)) ≤ 1 := (div_le_one hq).mpr hle
      have hdiv0 : 0 ≤ (h : ℚ) / ((h : ℚ) + (m : ℚ)) := by positivity
      constructor
      · nlinarith
      · nlinarith
  constructor
  · intro σ c init ops q hq
    simp only [runStringTrace] at hq
    by_cases h0 : (ops.foldl (stringTraceStep c) (init, 0, 0)).2.1
        + (ops.foldl (stringTraceStep c) (init, 0, 0)).2.2 = 0
    · rw [if_pos h0] at hq
      exact Option.noConfusion hq
    · rw [if_neg h0] at hq
      obtain rfl := Option.some.inj hq
      exact key _ _
  · intro σ c init ops q hq
    simp only [runMetaTrace] at hq
    by_cases h0 : (ops.foldl (metaTraceStep c) (init, 0, 0)).2.1
        + (ops.foldl (metaTraceStep c) (init, 0, 0)).2.2 = 0
    · rw [if_pos h0] at hq
      exact Option.noConfusion hq
    · rw [if_neg h0] at hq
      obtain rfl := Option.some.inj hq
      exact key _ _

/-- Witness for C6 amended: the trace a, a evaluates to a 50 percent hit
rate, which the amended bound confirms lies between 0 and 100. -/
theorem hitRate_bounds_amended_witness :
    (0 : ℚ) ≤ 50 ∧ (50 : ℚ) ≤ 100 :=
  hitRate_bounds_amended.1 (List (String × String)) assocCache [] ["a", "a"] 50
    (by simp [runStringTrace, stringTraceStep, assocCache]; norm_num)

/-- C9: before the timed loop of the Set-with-eviction benchmark starts,
the cache is pre-filled with exactly its capacity in distinct keys, and
every key the timed loop writes lies outside the pre-filled key set, so
each measured Set lands on a full cache holding none of the timed keys. -/
theorem benchSetEvict_prefill_disjoint (capacity : ℕ) (hc : 0 < capacity) :
    (benchSetEvictPrefill capacity (latencyEvictKeyPool capacity)).length = capacity
    ∧ (benchSetEvictPrefill capacity (latencyEvictKeyPool capacity)).Nodup
    ∧ ∀ i : ℕ, benchSetEvictTimedKey capacity (latencyEvictKeyPool capacity) i
        ∉ benchSetEvictPrefill capacity (latencyEvictKeyPool capacity) := by
  have htake : benchSetEvictPrefill capacity (latencyEvictKeyPool capacity)
      = List.range capacity := by
    rw [benchSetEvictPrefill, latencyEvictKeyPool, List.take_range]
    congr 1
    omega
  have hTK : benchSetEvictTimedKeys capacity (latencyEvictKeyPool capacity)
      = (List.range (20 * capacity)).drop capacity := rfl
  have hdlen : (benchSetEvictTimedKeys capacity (latencyEvictKeyPool capacity)).length
      = 19 * capacity := by
    rw [hTK]
    simp
    omega
  have hsuffix : ∀ k ∈ (List.range (20 * capacity)).drop capacity, capacity ≤ k := by
    intro k hk
    obtain ⟨j, hjlen, hjval⟩ := List.getElem_of_mem hk
    rw [List.getElem_drop, List.getElem_range] at hjval
    omega
  refine ⟨by rw [htake]; simp, by rw [htake]; exact List.nodup_range _, ?_⟩
  intro i
  have hlen : 0 < (benchSetEvictTimedKeys capacity (latencyEvictKeyPool capacity)).length := by
    rw [hdlen]
    omega
  have hidx := Nat.mod_lt i hlen
  have hkey : benchSetEvictTimedKey capacity (latencyEvictKeyPool capacity) i
      ∈ benchSetEvictTimedKeys capacity (latencyEvictKeyPool capacity) := by
    rw [benchSetEvictTimedKey, List.getD_eq_getElem _ 0 hidx]
    exact List.getElem_mem _
  rw [hTK] at hkey
  have hge := hsuffix _ hkey
  rw [htake]
  simp only [List.mem_range]
  omega

/-- Witness for C9 at the concrete capacity of the latency benchmarks. -/
theorem benchSetEvict_prefill_disjoint_witness :
    (benchSetEvictPrefill latencyCacheSize (latencyEvictKeyPool latencyCacheSize)).length
        = latencyCacheSize
    ∧ (benchSetEvictPrefill latencyCacheSize (latencyEvictKeyPool latencyCacheSize)).Nodup
    ∧ ∀ i : ℕ, benchSetEvictTimedKey latencyCacheSize (latencyEvictKeyPool latencyCacheSize) i
        ∉ benchSetEvictPrefill latencyCacheSize (latencyEvictKeyPool latencyCacheSize) :=
  benchSetEvict_prefill_disjoint latencyCacheSize (by norm_num [latencyCacheSize])

/-- C3: the generator output is a function of exactly (n, keySpace, theta,
seed) — two invocations on equal parameters give equal key sequences — and
the pseudo-random stream is the PCG seeded deterministically with the pair
(seed, seed+1), advanced once before every draw. -/
theorem generateZipfInt_deterministic :
    (∀ (fm : FloatModel) (n ks : ℕ) (theta : ℚ) (seed : ℕ) (n2 ks2 : ℕ) (theta2 : ℚ)
        (seed2 : ℕ), n = n2 → ks = ks2 → theta = theta2 → seed = seed2 →
        GenerateZipfInt fm n ks theta seed = GenerateZipfInt fm n2 ks2 theta2 seed2)
    ∧ (∀ (fm : FloatModel) (n ks : ℕ) (theta : ℚ) (seed : ℕ),
        GenerateZipfInt fm n ks theta seed
          = generateZipfIntWith fm n ks theta (fun i => pcgFloat64 (pcgStates seed i)))
    ∧ (∀ seed : ℕ, pcgStates seed 0 = pcgNext (pcgInit seed))
    ∧ (∀ seed : ℕ, pcgInit seed = (seed % 2 ^ 64) * 2 ^ 64 + (seed + 1) % 2 ^ 64) := by
  refine ⟨?_, fun fm n ks theta seed => rfl, fun seed => rfl, fun seed => rfl⟩
  intro fm n ks theta seed n2 ks2 theta2 seed2 h1 h2 h3 h4
  subst h1
  subst h2
  subst h3
  subst h4
  rfl

/-- Witness for C3: two invocations of the generator on one concrete
parameter tuple agree. -/
theorem generateZipfInt_deterministic_witness :
    GenerateZipfInt ⟨fun _ _ => 1⟩ 2 3 (1 / 2) 42 = GenerateZipfInt ⟨fun _ _ => 1⟩ 2 3 (1 / 2) 42 :=
  generateZipfInt_deterministic.1 ⟨fun _ _ => 1⟩ 2 3 (1 / 2) 42 2 3 (1 / 2) 42 rfl rfl rfl rfl

/-- Every value of the modelled rand.Float64 lies in the half-open unit
interval. -/
theorem pcgFloat64_bounds (s : ℕ) : 0 ≤ pcgFloat64 s ∧ pcgFloat64 s < 1 := by
  rw [pcgFloat64]
  constructor
  · positivity
  · rw [div_lt_one (by positivity)]
    have hlt : pcgOutput s % 2 ^ 53 < 2 ^ 53 := Nat.mod_lt _ (by positivity)
    exact_mod_cast hlt

/-- Positivity of the zeta sum for at least one term, given that the power
function sends positive bases to positive values. -/
theorem computeZeta_pos (fm : FloatModel) (theta : ℚ)
    (hpos : ∀ x y : ℚ, 0 < x → 0 < fm.pow x y) (n : ℕ) (hn : 0 < n) :
    0 < computeZeta fm n theta := by
  rw [computeZeta]
  apply List.sum_pos
  · intro x hx
    simp only [List.mem_map, List.mem_range] at hx
    obtain ⟨i, _, rfl⟩ := hx
    have hb : (0 : ℚ) < (i : ℚ) + 1 := by positivity
    exact div_pos one_pos (hpos _ theta hb)
  · apply List.ne_nil_of_length_pos
    simpa using hn

/-- Strict monotonicity of the zeta sum in its number of terms. -/
theorem computeZeta_lt (fm : FloatModel) (theta : ℚ)
    (hpos : ∀ x y : ℚ, 0 < x → 0 < fm.pow x y) (m n : ℕ) (hmn : m < n) :
    computeZeta fm m theta < computeZeta fm n theta := by
  rw [computeZeta, computeZeta]
  have hsplit : n = m + (n - m) := by omega
  rw [hsplit, List.range_add, List.map_append, List.sum_append]
  have hpos2 : 0 < (((List.range (n - m)).map (fun x => m + x)).map
      (fun i : ℕ => 1 / fm.pow ((i : ℚ) + 1) theta)).sum := by
    apply List.sum_pos
    · intro x hx
      simp only [List.mem_map, List.mem_range] at hx
      obtain ⟨i, hi, rfl⟩ := hx
      exact div_pos one_pos (hpos _ theta (by positivity))
    · apply List.ne_nil_of_length_pos
      simp
      omega
  linarith

/-- Value of the zeta sum at 2 when the power function fixes 1: the two
terms are 1 and the reciprocal of 2 to the theta. -/
theorem computeZeta_two (fm : FloatModel) (theta : ℚ) (h1 : fm.pow 1 theta = 1) :
    computeZeta fm 2 theta = 1 + 1 / fm.pow 2 theta := by
  have : List.range 2 = [0, 1] := rfl
  rw [computeZeta, this]
  simp [h1]
  norm_num

/-- Range of a single draw of the generator with an abstract uniform
stream: every draw lies in the half-open interval from 0 to keySpace, for
any power model satisfying the contract of real powers that the code
relies on. -/
theorem generateZipfIntWith_bounds (fm : FloatModel) (n keySpace : ℕ) (theta : ℚ)
    (u : ℕ → ℚ)
    (hks : 1 ≤ keySpace) (ht0 : 0 < theta) (ht1 : theta < 1)
    (hpos : ∀ x y : ℚ, 0 < x → 0 < fm.pow x y)
    (hle1 : ∀ x y : ℚ, 0 < x → x ≤ 1 → 0 < y → fm.pow x y ≤ 1)
    (h1 : fm.pow 1 theta = 1)
    (hhalf : fm.pow (1 / 2) theta = 1 / fm.pow 2 theta)
    (hu : ∀ i, 0 ≤ u i ∧ u i < 1) :
    ∀ r ∈ generateZipfIntWith fm n keySpace theta u, 0 ≤ r ∧ r < (keySpace : ℤ) := by
  intro r hr
  rw [generateZipfIntWith] at hr
  simp only [List.mem_map, List.mem_range] at hr
  obtain ⟨i, hi, rfl⟩ := hr
  obtain ⟨hu0, hu1⟩ := hu i
  have hksZ : (1 : ℤ) ≤ (keySpace : ℤ) := by exact_mod_cast hks
  have hS : (0 : ℚ) < (keySpace : ℚ) + 1 := by positivity
  have hZ : 0 < computeZeta fm (keySpace + 1) theta :=
    computeZeta_pos fm theta hpos (keySpace + 1) (by omega)
  have hH : (1 : ℚ) + fm.pow (1 / 2) theta = computeZeta fm 2 theta := by
    rw [computeZeta_two fm theta h1, hhalf]
  rw [zipfDraw]
  by_cases hc1 : u i * computeZeta fm (keySpace + 1) theta < 1
  · simp only [hc1, if_true]
    rw [if_neg (by omega)]
    omega
  · by_cases hc2 : u i * computeZeta fm (keySpace + 1) theta < 1 + fm.pow (1 / 2) theta
    · simp only [hc1, hc2, if_false, if_true]
      by_cases hcl : (keySpace : ℤ) ≤ 1
      · rw [if_pos hcl]
        omega
      · rw [if_neg hcl]
        omega
    · simp only [hc1, hc2, if_false]
      have huz : computeZeta fm 2 theta ≤ u i * computeZeta fm (keySpace + 1) theta := by
        rw [← hH]
        linarith [not_lt.mp hc2]
      rcases Nat.lt_or_ge keySpace 2 with hks1 | hks2
      · exfalso
        have hkeq : keySpace = 1 := by omega
        subst hkeq
        have hlt : u i * computeZeta fm 2 theta < computeZeta fm 2 theta := by
          have hZ2 : 0 < computeZeta fm 2 theta := computeZeta_pos fm theta hpos 2 (by omega)
          nlinarith
        exact absurd huz (by norm_num at hlt ⊢; nlinarith [hlt])
      · have hz2Z : computeZeta fm 2 theta < computeZeta fm (keySpace + 1) theta :=
          computeZeta_lt fm theta hpos 2 (keySpace + 1) (by omega)
        have hz2 : 0 < computeZeta fm 2 theta := computeZeta_pos fm theta hpos 2 (by omega)
        have hu_ge : computeZeta fm 2 theta / computeZeta fm (keySpace + 1) theta ≤ u i := by
          rw [div_le_iff₀ hZ]
          linarith [huz]
        have hD : 0 < 1 - computeZeta fm 2 theta / computeZeta fm (keySpace + 1) theta := by
          have hlt1 : computeZeta fm 2 theta / computeZeta fm (keySpace + 1) theta < 1 :=
            (div_lt_one hZ).mpr hz2Z
          linarith
        have h2S : (0 : ℚ) < 2 / ((keySpace : ℚ) + 1) := by positivity
        have h2S1 : 2 / ((keySpace : ℚ) + 1) ≤ 1 := by
          rw [div_le_one hS]
          have hc : (1 : ℚ) ≤ (keySpace : ℚ) := by exact_mod_cast hks
          linarith
        have hN : 0 ≤ 1 - fm.pow (2 / ((keySpace : ℚ) + 1)) (1 - theta) := by
          have := hle1 _ (1 - theta) h2S h2S1 (by linarith)
          linarith
        have heta : 0 ≤ (1 - fm.pow (2 / ((keySpace : ℚ) + 1)) (1 - theta))
            / (1 - computeZeta fm 2 theta / computeZeta fm (keySpace + 1) theta) :=
          div_nonneg hN (le_of_lt hD)
        have h1u : 1 - u i ≤ 1 - computeZeta fm 2 theta / computeZeta fm (keySpace + 1) theta := by
          linarith [hu_ge]
        have hmul : ((1 - fm.pow (2 / ((keySpace : ℚ) + 1)) (1 - theta))
              / (1 - computeZeta fm 2 theta / computeZeta fm (keySpace + 1) theta)) * (1 - u i)
            ≤ ((1 - fm.pow (2 / ((keySpace : ℚ) + 1)) (1 - theta))
              / (1 - computeZeta fm 2 theta / computeZeta fm (keySpace + 1) theta))
              * (1 - computeZeta fm 2 theta / computeZeta fm (keySpace + 1) theta) :=
          mul_le_mul_of_nonneg_left h1u heta
        have hcancel : ((1 - fm.pow (2 / ((keySpace : ℚ) + 1)) (1 - theta))
              / (1 - computeZeta fm 2 theta / computeZeta fm (keySpace + 1) theta))
              * (1 - computeZeta fm 2 theta / computeZeta fm (keySpace + 1) theta)
            = 1 - fm.pow (2 / ((keySpace : ℚ) + 1)) (1 - theta) :=
          div_mul_cancel₀ _ (ne_of_gt hD)
        have hbase : 0 < ((1 - fm.pow (2 / ((keySpace : ℚ) + 1)) (1 - theta))
              / (1 - computeZeta fm 2 theta / computeZeta fm (keySpace + 1) theta)) * u i
            - ((1 - fm.pow (2 / ((keySpace : ℚ) + 1)) (1 - theta))
              / (1 - computeZeta fm 2 theta / computeZeta fm (keySpace + 1) theta)) + 1 := by
          have hpow : 0 < fm.pow (2 / ((keySpace : ℚ) + 1)) (1 - theta) := hpos _ _ h2S
          nlinarith [hmul, hcancel]
        have hvalpos : 0 < ((keySpace : ℚ) + 1)
            * fm.pow (((1 - fm.pow (2 / ((keySpace : ℚ) + 1)) (1 - theta))
              / (1 - computeZeta fm 2 theta / computeZeta fm (keySpace + 1) theta)) * u i
            - ((1 - fm.pow (2 / ((keySpace : ℚ) + 1)) (1 - theta))
              / (1 - computeZeta fm 2 theta / computeZeta fm (keySpace + 1) theta)) + 1)
              (1 / (1 - theta)) :=
          mul_pos hS (hpos _ _ hbase)
        rw [goTrunc, if_pos (le_of_lt hvalpos)]
        have hfl : 0 ≤ ⌊((keySpace : ℚ) + 1)
            * fm.pow (((1 - fm.pow (2 / ((keySpace : ℚ) + 1)) (1 - theta))
              / (1 - computeZeta fm 2 theta / computeZeta fm (keySpace + 1) theta)) * u i
            - ((1 - fm.pow (2 / ((keySpace : ℚ) + 1)) (1 - theta))
              / (1 - computeZeta fm 2 theta / computeZeta fm (keySpace + 1) theta)) + 1)
              (1 / (1 - theta))⌋ :=
          Int.floor_nonneg.mpr (le_of_lt hvalpos)
        by_cases hcl : (keySpace : ℤ) ≤ ⌊((keySpace : ℚ) + 1)
            * fm.pow (((1 - fm.pow (2 / ((keySpace : ℚ) + 1)) (1 - theta))
              / (1 - computeZeta fm 2 theta / computeZeta fm (keySpace + 1) theta)) * u i
            - ((1 - fm.pow (2 / ((keySpace : ℚ) + 1)) (1 - theta))
              / (1 - computeZeta fm 2 theta / computeZeta fm (keySpace + 1) theta)) + 1)
              (1 / (1 - theta))⌋
        · rw [if_pos hcl]
          omega
        · rw [if_neg hcl]
          omega

/-- C4: for keySpace at least 1 and theta strictly between 0 and 1, every
key the generator returns lies in the half-open range from 0 to keySpace,
for every count and every seed; the closed-form branch value is clamped
only from above, to keySpace - 1, and its unclamped value is already
nonnegative.  The hypotheses on the power model state the properties of
math.Pow on the arguments the code feeds it: positive bases give positive
powers, bases at most 1 with positive exponent give powers at most 1, the
power of 1 is 1, and the power of one half is the reciprocal of the power
of 2. -/
theorem generateZipfInt_bounds (fm : FloatModel) (n keySpace : ℕ) (theta : ℚ) (seed : ℕ)
    (hks : 1 ≤ keySpace) (ht0 : 0 < theta) (ht1 : theta < 1)
    (hpos : ∀ x y : ℚ, 0 < x → 0 < fm.pow x y)
    (hle1 : ∀ x y : ℚ, 0 < x → x ≤ 1 → 0 < y → fm.pow x y ≤ 1)
    (h1 : fm.pow 1 theta = 1)
    (hhalf : fm.pow (1 / 2) theta = 1 / fm.pow 2 theta) :
    ∀ r ∈ GenerateZipfInt fm n keySpace theta seed, 0 ≤ r ∧ r < (keySpace : ℤ) := by
  rw [GenerateZipfInt]
  exact generateZipfIntWith_bounds fm n keySpace theta (pcgFloatStream seed)
    hks ht0 ht1 hpos hle1 h1 hhalf (fun i => pcgFloat64_bounds (pcgStates seed i))

/-- Witness for C4: with the constant-one power model (which satisfies all
four power hypotheses), keySpace 3, theta one half and seed 0, every
generated key lies in the range from 0 to 3. -/
theorem generateZipfInt_bounds_witness :
    List.Forall (fun r => 0 ≤ r ∧ r < (3 : ℤ)) (GenerateZipfInt ⟨fun _ _ => 1⟩ 2 3 (1 / 2) 0) :=
  List.forall_iff_forall_mem.mpr
    (generateZipfInt_bounds ⟨fun _ _ => 1⟩ 2 3 (1 / 2) 0 (by norm_num) (by norm_num)
      (by norm_num) (fun x y hx => one_pos) (fun x y hx hx1 hy => le_refl 1) rfl (by norm_num))
